import Mathlib

/-!
Verification development for the `city-timezones-go` repository.

The core under verification is the LRU search-result cache
(`internal/city/cache.go`) together with the search/validation layer in
front of it.  The cache code is embedded shallowly below: the Go
`map[string]*list.Element` plus `container/list` doubly-linked `lruList`
pair is represented by a single Lean list of key/value pairs ordered from
most-recently-used (front) to least-recently-used (back); the Go map is
exactly the function `fun k => lruList.find? (fun e => e.1 == k)`, so the
list alone determines the whole data structure.  The `uint64` counters are
modelled as `Nat` (no cache code branches on counter overflow, and fewer
than `2 ^ 64` operations ever occur in a run).
-/

/-- Embedding of the Go struct `CityData` (fields from `internal/city/types.go`
as used by the tests and the spec: city, province, country, ISO codes,
timezone, coordinates, population). -/
structure CityData where
  City : String := ""
  Province : String := ""
  Country : String := ""
  ISO2 : String := ""
  ISO3 : String := ""
  Timezone : String := ""
  Lat : Float := 0.0
  Lng : Float := 0.0
  Pop : Float := 0.0

/-- Convenience constructor used in concrete witnesses. -/
def mkCity (name prov ctry : String) : CityData :=
  { City := name, Province := prov, Country := ctry }

/-- Go constant `DefaultMaxCacheSize = 1000` from `cache.go`. -/
def DefaultMaxCacheSize : Nat := 1000

/-- Embedding of the Go struct `SearchCache`.  `lruList` holds the cache
entries from most-recently-used (front) to least-recently-used (back);
the Go `cache` map is the derived lookup function over this list. -/
structure SearchCache where
  lruList : List (String × List CityData)
  maxSize : Nat
  hits : Nat
  misses : Nat
  evictions : Nat

/-- Go `NewSearchCacheWithSize`: a non-positive requested size falls back to
`DefaultMaxCacheSize`. -/
def NewSearchCacheWithSize (maxSize : Int) : SearchCache :=
  { lruList := []
    maxSize := if maxSize ≤ 0 then DefaultMaxCacheSize else maxSize.toNat
    hits := 0
    misses := 0
    evictions := 0 }

/-- Go `NewSearchCache`: construction at the default size. -/
def NewSearchCache : SearchCache :=
  NewSearchCacheWithSize (DefaultMaxCacheSize : Int)

/-- Go `SearchCache.Get`: on a miss increment `misses`; on a hit move the
element to the front of the recency list, increment `hits`, and return the
stored value (the Go code returns `entry.value` itself, with no copy). -/
def SearchCache.Get (c : SearchCache) (key : String) :
    Option (List CityData) × SearchCache :=
  match c.lruList.find? (fun e => e.1 == key) with
  | none => (none, { c with misses := c.misses + 1 })
  | some e =>
      (some e.2,
       { c with
           lruList := e :: c.lruList.eraseP (fun x => x.1 == key)
           hits := c.hits + 1 })

/-- Go `SearchCache.evictOldest`: remove the back (least-recently-used)
element of the recency list, if any, and count one eviction. -/
def SearchCache.evictOldest (c : SearchCache) : SearchCache :=
  match c.lruList.getLast? with
  | none => c
  | some _ =>
      { c with
          lruList := c.lruList.dropLast
          evictions := c.evictions + 1 }

/-- Go `SearchCache.Set`: an existing key is overwritten in place and moved
to the front; a new key is pushed at the front and, if occupancy now
exceeds `maxSize`, the oldest entry is evicted. -/
def SearchCache.Set (c : SearchCache) (key : String) (result : List CityData) :
    SearchCache :=
  if c.lruList.any (fun e => e.1 == key) then
    { c with lruList := (key, result) :: c.lruList.eraseP (fun e => e.1 == key) }
  else
    let c1 : SearchCache := { c with lruList := (key, result) :: c.lruList }
    if c1.lruList.length > c1.maxSize then c1.evictOldest else c1

/-- Go `SearchCache.Clear`: drop all entries, keep `maxSize` and all
statistics counters. -/
def SearchCache.Clear (c : SearchCache) : SearchCache :=
  { c with lruList := [] }

/-- Go `SearchCache.Size`: the number of stored entries (`len(c.cache)`;
map and recency list always hold the same entries). -/
def SearchCache.Size (c : SearchCache) : Nat :=
  c.lruList.length

/-- Go `SearchCache.MaxSize`. -/
def SearchCache.MaxSize (c : SearchCache) : Nat :=
  c.maxSize

/-- Membership in the Go `cache` map. -/
def SearchCache.contains (c : SearchCache) (key : String) : Bool :=
  c.lruList.any (fun e => e.1 == key)

/-- The value the Go `cache` map associates to a key, if any. -/
def SearchCache.lookup (c : SearchCache) (key : String) :
    Option (List CityData) :=
  (c.lruList.find? (fun e => e.1 == key)).map Prod.snd

/-- Embedding of the Go struct `CacheStats`.  The Go field `HitRate` is a
`float64` computed by exact small-integer division; it is modelled by the
mathematical value of that expression, a rational. -/
structure CacheStats where
  Size : Nat
  MaxSize : Nat
  Hits : Nat
  Misses : Nat
  Evictions : Nat
  HitRate : Rat

/-- Go `SearchCache.Stats`: a snapshot of the counters plus the derived hit
rate `hits / (hits + misses) * 100`, or `0` when no lookup happened yet. -/
def SearchCache.Stats (c : SearchCache) : CacheStats :=
  { Size := c.lruList.length
    MaxSize := c.maxSize
    Hits := c.hits
    Misses := c.misses
    Evictions := c.evictions
    HitRate :=
      if c.hits + c.misses > 0 then
        (c.hits : Rat) / ((c.hits + c.misses : Nat) : Rat) * 100
      else 0 }

/-- One cache operation, for stating properties over operation sequences
(`Size`, `MaxSize` and `Stats` are read-only and leave the state alone). -/
inductive CacheOp where
  | get (key : String)
  | set (key : String) (result : List CityData)
  | clear
  | sizeQuery
  | maxSizeQuery
  | statsQuery

/-- Apply one cache operation to a cache state. -/
def applyOp (c : SearchCache) : CacheOp → SearchCache
  | .get k => (c.Get k).2
  | .set k v => c.Set k v
  | .clear => c.Clear
  | .sizeQuery => c
  | .maxSizeQuery => c
  | .statsQuery => c

/-- Apply a sequence of cache operations. -/
def applyOps (c : SearchCache) (ops : List CacheOp) : SearchCache :=
  ops.foldl applyOp c

/-- Insert a list of key/value pairs, in order, via `Set`. -/
def setAll (c : SearchCache) (kvs : List (String × List CityData)) :
    SearchCache :=
  kvs.foldl (fun a kv => a.Set kv.1 kv.2) c

/-- A cache state reachable from a constructor call through the public
operations. -/
def Reachable (c : SearchCache) : Prop :=
  ∃ (m : Int) (ops : List CacheOp), c = applyOps (NewSearchCacheWithSize m) ops

/-! ### Basic lemmas about the cache operations -/

/-- A successful `find?` witnesses a permutation with the erased list:
moving the found element to the front only reorders the entries. -/
theorem find?_perm_cons_eraseP {α : Type} {p : α → Bool} {l : List α} {e : α}
    (h : l.find? p = some e) : l.Perm (e :: l.eraseP p) := by
  induction l with
  | nil => simp at h
  | cons a t ih =>
    by_cases hp : p a = true
    · rw [List.find?_cons_of_pos _ hp] at h
      cases h
      rw [List.eraseP_cons_of_pos hp]
    · rw [List.find?_cons_of_neg _ hp] at h
      rw [List.eraseP_cons_of_neg hp]
      exact (List.Perm.cons a (ih h)).trans (List.Perm.swap e a _)

/-- `contains` is exactly `find?` succeeding. -/
theorem contains_iff_find? (c : SearchCache) (k : String) :
    c.contains k = true ↔ ∃ e, c.lruList.find? (fun x => x.1 == k) = some e := by
  unfold SearchCache.contains
  rw [List.any_eq_true, ← List.find?_isSome, Option.isSome_iff_exists]

/-- On a miss, `Get` only bumps the miss counter. -/
theorem get_miss (c : SearchCache) (k : String)
    (h : c.lruList.find? (fun e => e.1 == k) = none) :
    c.Get k = (none, { c with misses := c.misses + 1 }) := by
  unfold SearchCache.Get
  rw [h]

/-- On a hit, `Get` returns the stored value and moves the entry to the
front. -/
theorem get_hit (c : SearchCache) (k : String) {e : String × List CityData}
    (h : c.lruList.find? (fun x => x.1 == k) = some e) :
    c.Get k = (some e.2,
      { c with
          lruList := e :: c.lruList.eraseP (fun x => x.1 == k)
          hits := c.hits + 1 }) := by
  unfold SearchCache.Get
  rw [h]

/-- Claim C10 — `Get` never modifies cache contents: the entries are merely
reordered (a permutation), size, capacity and the eviction counter are
unchanged, and exactly one of the hit/miss counters increases by one,
according to whether the key is present.  In particular a miss does not
create an entry for the key. -/
theorem get_frame (c : SearchCache) (k : String) :
    ((c.Get k).2).lruList.Perm c.lruList ∧
    ((c.Get k).2).Size = c.Size ∧
    ((c.Get k).2).MaxSize = c.MaxSize ∧
    ((c.Get k).2).evictions = c.evictions ∧
    ((c.Get k).2).hits = (if c.contains k = true then c.hits + 1 else c.hits) ∧
    ((c.Get k).2).misses = (if c.contains k = true then c.misses else c.misses + 1) := by
  cases hf : c.lruList.find? (fun e => e.1 == k) with
  | none =>
    have hc : c.contains k = false := by
      unfold SearchCache.contains
      rw [List.any_eq_false]
      intro x hx
      exact List.find?_eq_none.mp hf x hx
    rw [get_miss c k hf]
    simp [SearchCache.Size, SearchCache.MaxSize, hc]
  | some e =>
    have hc : c.contains k = true :=
      (contains_iff_find? c k).mpr ⟨e, hf⟩
    have hperm : c.lruList.Perm (e :: c.lruList.eraseP (fun x => x.1 == k)) :=
      find?_perm_cons_eraseP hf
    rw [get_hit c k hf]
    refine ⟨hperm.symm, ?_, by simp [SearchCache.MaxSize], by simp, by simp [hc], by simp [hc]⟩
    simp only [SearchCache.Size]
    exact hperm.length_eq.symm

/-- Single-operation monotonicity of the three statistics counters. -/
theorem applyOp_counters_mono (c : SearchCache) (op : CacheOp) :
    c.hits ≤ (applyOp c op).hits ∧ c.misses ≤ (applyOp c op).misses ∧
      c.evictions ≤ (applyOp c op).evictions := by
  cases op with
  | get k =>
    cases hf : c.lruList.find? (fun e => e.1 == k) with
    | none => rw [applyOp, get_miss c k hf]; simp
    | some e => rw [applyOp, get_hit c k hf]; simp
  | set k v =>
    simp only [applyOp, SearchCache.Set]
    split
    · simp
    · split
      · unfold SearchCache.evictOldest
        split <;> simp
      · simp
  | clear => simp [applyOp, SearchCache.Clear]
  | sizeQuery => simp [applyOp]
  | maxSizeQuery => simp [applyOp]
  | statsQuery => simp [applyOp]

/-- Counter monotonicity over a whole operation sequence. -/
theorem applyOps_counters_mono (ops : List CacheOp) (c : SearchCache) :
    c.hits ≤ (applyOps c ops).hits ∧ c.misses ≤ (applyOps c ops).misses ∧
      c.evictions ≤ (applyOps c ops).evictions := by
  induction ops generalizing c with
  | nil => simp [applyOps]
  | cons op rest ih =>
    have h1 := applyOp_counters_mono c op
    have h2 := ih (applyOp c op)
    have hstep : applyOps c (op :: rest) = applyOps (applyOp c op) rest := rfl
    rw [hstep]
    exact ⟨h1.1.trans h2.1, h1.2.1.trans h2.2.1, h1.2.2.trans h2.2.2⟩

/-- Claim C5 — statistics monotonicity and the `Clear` frame: over every
operation sequence the hit, miss and eviction counters never decrease, and
`Clear` empties the cache while leaving all three counters untouched. -/
theorem stats_monotone_clear_frame (c : SearchCache) (ops : List CacheOp) :
    c.hits ≤ (applyOps c ops).hits ∧
    c.misses ≤ (applyOps c ops).misses ∧
    c.evictions ≤ (applyOps c ops).evictions ∧
    (c.Clear).Size = 0 ∧
    (c.Clear).hits = c.hits ∧
    (c.Clear).misses = c.misses ∧
    (c.Clear).evictions = c.evictions := by
  refine ⟨(applyOps_counters_mono ops c).1, (applyOps_counters_mono ops c).2.1,
    (applyOps_counters_mono ops c).2.2, ?_, rfl, rfl, rfl⟩
  simp [SearchCache.Clear, SearchCache.Size]

/-- Claim C6 — hit-rate bound and formula: the reported hit rate always
lies in `[0, 100]`, is `0` when no lookup has happened, and otherwise
equals `hits / (hits + misses) * 100`. -/
theorem hit_rate_bound (c : SearchCache) :
    0 ≤ (c.Stats).HitRate ∧ (c.Stats).HitRate ≤ 100 ∧
    (c.Stats).HitRate =
      (if c.hits + c.misses = 0 then 0
       else (c.hits : Rat) / ((c.hits : Rat) + (c.misses : Rat)) * 100) := by
  unfold SearchCache.Stats
  rcases Nat.eq_zero_or_pos (c.hits + c.misses) with h | h
  · simp [h]
  · have hne : c.hits + c.misses ≠ 0 := Nat.pos_iff_ne_zero.mp h
    have hpos : (0 : Rat) < ((c.hits + c.misses : Nat) : Rat) := by
      exact_mod_cast h
    have hle : (c.hits : Rat) ≤ ((c.hits + c.misses : Nat) : Rat) := by
      push_cast
      linarith [Nat.cast_nonneg (α := Rat) c.misses]
    have hquot : (c.hits : Rat) / ((c.hits + c.misses : Nat) : Rat) ≤ 1 :=
      div_le_one_of_le₀ hle (le_of_lt hpos)
    have hquot0 : 0 ≤ (c.hits : Rat) / ((c.hits + c.misses : Nat) : Rat) :=
      div_nonneg (Nat.cast_nonneg _) (le_of_lt hpos)
    refine ⟨?_, ?_, ?_⟩
    · simp only [if_pos h]
      positivity
    · simp only [if_pos h]
      nlinarith [hquot, hquot0]
    · rw [if_pos h, if_neg hne]
      push_cast
      ring

/-- Claim C9 — capacity fallback: construction never fails, a non-positive
requested capacity silently becomes the documented default of 1000, and a
positive requested capacity is kept as given. -/
theorem capacity_fallback (m : Int) :
    DefaultMaxCacheSize = 1000 ∧
    (NewSearchCacheWithSize m).MaxSize = (if m ≤ 0 then 1000 else m.toNat) ∧
    ((NewSearchCacheWithSize m).MaxSize : Int) = (if m ≤ 0 then 1000 else m) := by
  refine ⟨rfl, rfl, ?_⟩
  simp only [NewSearchCacheWithSize, SearchCache.MaxSize]
  split
  · rfl
  · rename_i hm
    have : (0 : Int) ≤ m := by omega
    simp [Int.toNat_of_nonneg this]

/-! ### Set and occupancy lemmas -/

/-- With a positive capacity, a `Set` always leaves its own key at the
front (most-recently-used position) of the recency list. -/
theorem set_cons (c : SearchCache) (k : String) (v : List CityData)
    (h : 0 < c.maxSize) :
    ∃ rest, (c.Set k v).lruList = (k, v) :: rest := by
  unfold SearchCache.Set
  split
  · exact ⟨_, rfl⟩
  · dsimp only
    split
    · rename_i hlen
      unfold SearchCache.evictOldest
      have hne : c.lruList ≠ [] := by
        intro hnil
        rw [hnil] at hlen
        simp at hlen
        omega
      cases hl : ((k, v) :: c.lruList).getLast? with
      | none =>
        simp at hl
      | some e =>
        refine ⟨c.lruList.dropLast, ?_⟩
        simp [List.dropLast_cons_of_ne_nil hne]
    · exact ⟨_, rfl⟩

/-- Overwriting a key that sits at the front replaces its value in place. -/
theorem set_overwrite_at_front (c : SearchCache) (k : String)
    (v1 v2 : List CityData) (rest : List (String × List CityData))
    (hc : c.lruList = (k, v1) :: rest) :
    (c.Set k v2).lruList = (k, v2) :: rest ∧
    (c.Set k v2).evictions = c.evictions := by
  have hany : c.lruList.any (fun e => e.1 == k) = true := by
    rw [hc]
    simp
  unfold SearchCache.Set
  rw [if_pos hany]
  refine ⟨?_, rfl⟩
  simp only
  rw [hc, List.eraseP_cons_of_pos (by simp)]

/-- Claim C7 — idempotent update on an existing key: a second `Set` on the
same key overwrites in place, keeps the size, triggers no eviction, leaves
the key at the most-recently-used position, and a subsequent `Get` returns
the new value. -/
theorem set_overwrite_idempotent (c : SearchCache) (k : String)
    (v1 v2 : List CityData) (h : 0 < c.maxSize) :
    ((c.Set k v1).Set k v2).Size = (c.Set k v1).Size ∧
    ((c.Set k v1).Set k v2).evictions = (c.Set k v1).evictions ∧
    (((c.Set k v1).Set k v2).Get k).1 = some v2 ∧
    ((c.Set k v1).Set k v2).lruList.head?.map Prod.fst = some k := by
  obtain ⟨rest, hrest⟩ := set_cons c k v1 h
  obtain ⟨hlist, hev⟩ := set_overwrite_at_front (c.Set k v1) k v1 v2 rest hrest
  have hfind : ((c.Set k v1).Set k v2).lruList.find? (fun e => e.1 == k) =
      some (k, v2) := by
    rw [hlist]
    exact List.find?_cons_of_pos _ (by simp)
  refine ⟨?_, hev, ?_, ?_⟩
  · simp only [SearchCache.Size, hlist, hrest, List.length_cons]
  · rw [get_hit _ k hfind]
  · rw [hlist]
    rfl

/-- Witness for C7 at a concrete cache, key and pair of values. -/
theorem set_overwrite_idempotent_witness :
    (((NewSearchCacheWithSize 3).Set "k" []).Set "k" [mkCity "A" "" ""]).Size =
      ((NewSearchCacheWithSize 3).Set "k" []).Size ∧
    (((NewSearchCacheWithSize 3).Set "k" []).Set "k" [mkCity "A" "" ""]).evictions =
      ((NewSearchCacheWithSize 3).Set "k" []).evictions ∧
    ((((NewSearchCacheWithSize 3).Set "k" []).Set "k" [mkCity "A" "" ""]).Get "k").1 =
      some [mkCity "A" "" ""] ∧
    (((NewSearchCacheWithSize 3).Set "k" []).Set "k" [mkCity "A" "" ""]).lruList.head?.map
      Prod.fst = some "k" :=
  set_overwrite_idempotent (NewSearchCacheWithSize 3) "k" [] [mkCity "A" "" ""]
    (by decide)

/-- Every operation leaves the configured capacity unchanged. -/
theorem applyOp_maxSize (c : SearchCache) (op : CacheOp) :
    (applyOp c op).maxSize = c.maxSize := by
  cases op with
  | get k =>
    cases hf : c.lruList.find? (fun e => e.1 == k) with
    | none => rw [applyOp, get_miss c k hf]
    | some e => rw [applyOp, get_hit c k hf]
  | set k v =>
    simp only [applyOp, SearchCache.Set]
    split
    · rfl
    · split
      · unfold SearchCache.evictOldest
        split <;> rfl
      · rfl
  | clear => rfl
  | sizeQuery => rfl
  | maxSizeQuery => rfl
  | statsQuery => rfl

/-- `Get` does not change the number of stored entries. -/
theorem get_lruList_length (c : SearchCache) (k : String) :
    ((c.Get k).2).lruList.length = c.lruList.length := by
  cases hf : c.lruList.find? (fun e => e.1 == k) with
  | none => rw [get_miss c k hf]
  | some e =>
    rw [get_hit c k hf]
    exact (find?_perm_cons_eraseP hf).length_eq.symm

/-- `Set` preserves the occupancy bound. -/
theorem set_size_le (c : SearchCache) (k : String) (v : List CityData)
    (h : c.lruList.length ≤ c.maxSize) :
    (c.Set k v).lruList.length ≤ c.maxSize := by
  unfold SearchCache.Set
  split
  · rename_i hany
    rcases List.any_eq_true.mp hany with ⟨e, he, hpe⟩
    simp only [List.length_cons]
    rw [List.length_eraseP_of_mem he hpe]
    have : 1 ≤ c.lruList.length := List.length_pos.mpr (List.ne_nil_of_mem he)
    omega
  · dsimp only
    split
    · rename_i hlen
      unfold SearchCache.evictOldest
      cases hl : ((k, v) :: c.lruList).getLast? with
      | none => simp at hl
      | some e =>
        simp only [List.length_dropLast, List.length_cons]
        omega
    · rename_i hlen
      simp only [List.length_cons] at hlen ⊢
      omega

/-- One step of the occupancy invariant. -/
theorem applyOp_size_le (c : SearchCache) (op : CacheOp)
    (h : c.lruList.length ≤ c.maxSize) :
    (applyOp c op).lruList.length ≤ (applyOp c op).maxSize := by
  rw [applyOp_maxSize]
  cases op with
  | get k => rw [show applyOp c (.get k) = (c.Get k).2 from rfl, get_lruList_length]; exact h
  | set k v => exact set_size_le c k v h
  | clear => simp [applyOp, SearchCache.Clear]
  | sizeQuery => exact h
  | maxSizeQuery => exact h
  | statsQuery => exact h

/-- The occupancy invariant over a whole operation sequence. -/
theorem applyOps_size_le (ops : List CacheOp) (c : SearchCache)
    (h : c.lruList.length ≤ c.maxSize) :
    (applyOps c ops).lruList.length ≤ (applyOps c ops).maxSize := by
  induction ops generalizing c with
  | nil => exact h
  | cons op rest ih => exact ih (applyOp c op) (applyOp_size_le c op h)

/-- No operation performs more than one eviction. -/
theorem applyOp_evictions_le (c : SearchCache) (op : CacheOp) :
    (applyOp c op).evictions ≤ c.evictions + 1 := by
  cases op with
  | get k =>
    cases hf : c.lruList.find? (fun e => e.1 == k) with
    | none => rw [applyOp, get_miss c k hf]; simp
    | some e => rw [applyOp, get_hit c k hf]; simp
  | set k v =>
    simp only [applyOp, SearchCache.Set]
    split
    · simp
    · split
      · unfold SearchCache.evictOldest
        split <;> simp
      · simp
  | clear => simp [applyOp, SearchCache.Clear]
  | sizeQuery => simp [applyOp]
  | maxSizeQuery => simp [applyOp]
  | statsQuery => simp [applyOp]

/-- Claim C8 — bounded occupancy: in every reachable state the number of
stored entries is at most the configured capacity, it stays so after any
further operation, an operation performs at most one eviction, and the
transient list built inside `Set` before eviction exceeds the capacity by
at most one entry. -/
theorem bounded_occupancy (c : SearchCache) (op : CacheOp) (k : String)
    (v : List CityData) (h : Reachable c) :
    c.Size ≤ c.MaxSize ∧
    (applyOp c op).Size ≤ (applyOp c op).MaxSize ∧
    (applyOp c op).evictions ≤ c.evictions + 1 ∧
    ((k, v) :: c.lruList).length ≤ c.MaxSize + 1 := by
  obtain ⟨m, ops, rfl⟩ := h
  have hbase : (NewSearchCacheWithSize m).lruList.length ≤
      (NewSearchCacheWithSize m).maxSize := by
    simp [NewSearchCacheWithSize]
  have hc := applyOps_size_le ops _ hbase
  refine ⟨hc, applyOp_size_le _ op hc, applyOp_evictions_le _ op, ?_⟩
  simp only [SearchCache.MaxSize, List.length_cons]
  omega

/-- Witness for C8 at a freshly constructed cache. -/
theorem bounded_occupancy_witness :
    (NewSearchCacheWithSize 3).Size ≤ (NewSearchCacheWithSize 3).MaxSize ∧
    (applyOp (NewSearchCacheWithSize 3) .clear).Size ≤
      (applyOp (NewSearchCacheWithSize 3) .clear).MaxSize ∧
    (applyOp (NewSearchCacheWithSize 3) .clear).evictions ≤
      (NewSearchCacheWithSize 3).evictions + 1 ∧
    (("a", ([] : List CityData)) :: (NewSearchCacheWithSize 3).lruList).length ≤
      (NewSearchCacheWithSize 3).MaxSize + 1 :=
  bounded_occupancy (NewSearchCacheWithSize 3) .clear "a" [] ⟨3, [], rfl⟩

/-! ### LRU eviction (claim C1) -/

/-- Keys all distinct from `k` make the membership test fail. -/
theorem any_key_eq_false {l : List (String × List CityData)} {k : String}
    (h : ∀ e ∈ l, e.1 ≠ k) : l.any (fun e => e.1 == k) = false := by
  rw [List.any_eq_false]
  intro x hx
  simpa using h x hx

/-- Inserting a fresh key with room to spare just pushes it at the front. -/
theorem set_fresh (c : SearchCache) (k : String) (v : List CityData)
    (hany : c.lruList.any (fun e => e.1 == k) = false)
    (hlen : c.lruList.length + 1 ≤ c.maxSize) :
    c.Set k v = { c with lruList := (k, v) :: c.lruList } := by
  unfold SearchCache.Set
  rw [if_neg (by simp [hany])]
  dsimp only
  rw [if_neg (by simp only [List.length_cons, gt_iff_lt, not_lt]; omega)]

/-- Inserting a fresh key into a full cache pushes it at the front and
evicts the last entry. -/
theorem set_fresh_evict (c : SearchCache) (k : String) (v : List CityData)
    (hany : c.lruList.any (fun e => e.1 == k) = false)
    (hlen : c.maxSize < c.lruList.length + 1) :
    c.Set k v =
      { c with
          lruList := ((k, v) :: c.lruList).dropLast
          evictions := c.evictions + 1 } := by
  unfold SearchCache.Set
  rw [if_neg (by simp [hany])]
  dsimp only
  rw [if_pos (by simp only [List.length_cons, gt_iff_lt]; omega)]
  unfold SearchCache.evictOldest
  cases hl : ((k, v) :: c.lruList).getLast? with
  | none => simp at hl
  | some e => rfl

/-- Filling a cache with pairwise-distinct fresh keys, within capacity,
stacks them at the front in reverse insertion order and touches no
counter. -/
theorem setAll_fresh (kvs : List (String × List CityData)) (c : SearchCache)
    (hfresh : ∀ kv ∈ kvs, ∀ e ∈ c.lruList, e.1 ≠ kv.1)
    (hnodup : kvs.Pairwise (fun a b => a.1 ≠ b.1))
    (hlen : c.lruList.length + kvs.length ≤ c.maxSize) :
    (setAll c kvs).lruList = kvs.reverse ++ c.lruList ∧
    (setAll c kvs).maxSize = c.maxSize ∧
    (setAll c kvs).hits = c.hits ∧
    (setAll c kvs).misses = c.misses ∧
    (setAll c kvs).evictions = c.evictions := by
  induction kvs generalizing c with
  | nil => simp [setAll]
  | cons kv rest ih =>
    have hanyf : c.lruList.any (fun e => e.1 == kv.1) = false :=
      any_key_eq_false (fun e he => hfresh kv (by simp) e he)
    have hset : c.Set kv.1 kv.2 = { c with lruList := (kv.1, kv.2) :: c.lruList } :=
      set_fresh c kv.1 kv.2 hanyf (by simp at hlen; omega)
    have hstep : setAll c (kv :: rest) = setAll (c.Set kv.1 kv.2) rest := rfl
    rw [hstep, hset]
    rcases List.pairwise_cons.mp hnodup with ⟨hkv, hrest⟩
    have hfresh2 : ∀ kv2 ∈ rest, ∀ e ∈ (kv.1, kv.2) :: c.lruList, e.1 ≠ kv2.1 := by
      intro kv2 h2 e he
      rcases List.mem_cons.mp he with he1 | he1
      · rw [he1]
        exact hkv kv2 h2
      · exact hfresh kv2 (by simp [h2]) e he1
    have hlen2 : ((kv.1, kv.2) :: c.lruList).length + rest.length ≤ c.maxSize := by
      simp only [List.length_cons]
      simp at hlen
      omega
    rcases ih { c with lruList := (kv.1, kv.2) :: c.lruList } hfresh2 hrest hlen2
      with ⟨h1, h2, h3, h4, h5⟩
    refine ⟨?_, h2, h3, h4, h5⟩
    rw [h1]
    simp

/-- Claim C1 — LRU eviction correctness.  Take a cache of capacity
`N = mt.length + 2` and `N + 1` pairwise-distinct keys
`kv0, m0, mt…, klast`.  (a) Inserting all `N + 1` keys with no intervening
reads leaves exactly the `N` most recently inserted entries, in recency
order, with the first-inserted key gone and the eviction counter at one.
(b) If instead the first `N` keys are inserted, `kv0` is then read (a
`Get` hit promoting it to most-recently-used), and only then `klast` is
inserted, the promoted `kv0` survives and the least-recently-used key `m0`
is evicted instead. -/
theorem lru_eviction_correct (kv0 m0 klast : String × List CityData)
    (mt : List (String × List CityData))
    (hnodup : ((kv0 :: m0 :: mt) ++ [klast]).Pairwise (fun a b => a.1 ≠ b.1)) :
    (setAll (NewSearchCacheWithSize ((mt.length + 2 : Nat) : Int))
        ((kv0 :: m0 :: mt) ++ [klast])).lruList = klast :: (m0 :: mt).reverse ∧
    (setAll (NewSearchCacheWithSize ((mt.length + 2 : Nat) : Int))
        ((kv0 :: m0 :: mt) ++ [klast])).contains kv0.1 = false ∧
    (setAll (NewSearchCacheWithSize ((mt.length + 2 : Nat) : Int))
        ((kv0 :: m0 :: mt) ++ [klast])).Size = mt.length + 2 ∧
    (setAll (NewSearchCacheWithSize ((mt.length + 2 : Nat) : Int))
        ((kv0 :: m0 :: mt) ++ [klast])).evictions = 1 ∧
    (((setAll (NewSearchCacheWithSize ((mt.length + 2 : Nat) : Int))
        (kv0 :: m0 :: mt)).Get kv0.1).2.Set klast.1 klast.2).lruList =
      klast :: kv0 :: mt.reverse ∧
    (((setAll (NewSearchCacheWithSize ((mt.length + 2 : Nat) : Int))
        (kv0 :: m0 :: mt)).Get kv0.1).2.Set klast.1 klast.2).contains kv0.1 = true ∧
    (((setAll (NewSearchCacheWithSize ((mt.length + 2 : Nat) : Int))
        (kv0 :: m0 :: mt)).Get kv0.1).2.Set klast.1 klast.2).contains m0.1 = false ∧
    (((setAll (NewSearchCacheWithSize ((mt.length + 2 : Nat) : Int))
        (kv0 :: m0 :: mt)).Get kv0.1).2.Set klast.1 klast.2).evictions = 1 := by
  rcases List.pairwise_append.mp hnodup with ⟨h1, _, h3⟩
  rcases List.pairwise_cons.mp h1 with ⟨h10, h11⟩
  rcases List.pairwise_cons.mp h11 with ⟨h110, _⟩
  have hklast : ∀ x ∈ kv0 :: m0 :: mt, x.1 ≠ klast.1 :=
    fun x hx => h3 x hx klast (by simp)
  set cap : SearchCache :=
    NewSearchCacheWithSize ((mt.length + 2 : Nat) : Int) with hcap
  have hcapmax : cap.maxSize = mt.length + 2 := by
    rw [hcap]
    simp only [NewSearchCacheWithSize]
    rw [if_neg (by omega)]
    omega
  have hfill := setAll_fresh (kv0 :: m0 :: mt) cap
    (by intro kv _ e he; rw [hcap] at he; simp [NewSearchCacheWithSize] at he)
    h1 (by rw [hcap]
           simp only [NewSearchCacheWithSize, List.length_nil, List.length_cons]
           rw [if_neg (by omega)]
           omega)
  rcases hfill with ⟨hf1, hf2, hf3, hf4, hf5⟩
  have hf1r : (setAll cap (kv0 :: m0 :: mt)).lruList =
      (m0 :: mt).reverse ++ [kv0] := by
    rw [hf1, hcap]
    simp [NewSearchCacheWithSize]
  -- Part (a): insert all N + 1 keys.
  have hsplit : setAll cap ((kv0 :: m0 :: mt) ++ [klast]) =
      (setAll cap (kv0 :: m0 :: mt)).Set klast.1 klast.2 := by
    unfold setAll
    rw [List.foldl_append]
    rfl
  have hanyk : (setAll cap (kv0 :: m0 :: mt)).lruList.any
      (fun e => e.1 == klast.1) = false := by
    apply any_key_eq_false
    intro e he
    rw [hf1] at he
    rcases List.mem_append.mp he with he1 | he1
    · exact hklast e (List.mem_reverse.mp he1)
    · rw [hcap] at he1
      simp [NewSearchCacheWithSize] at he1
  have hALen : (setAll cap (kv0 :: m0 :: mt)).maxSize <
      (setAll cap (kv0 :: m0 :: mt)).lruList.length + 1 := by
    rw [hf1r, hf2, hcapmax]
    simp
  have hA : setAll cap ((kv0 :: m0 :: mt) ++ [klast]) =
      { setAll cap (kv0 :: m0 :: mt) with
          lruList := ((klast.1, klast.2) ::
            (setAll cap (kv0 :: m0 :: mt)).lruList).dropLast
          evictions := (setAll cap (kv0 :: m0 :: mt)).evictions + 1 } := by
    rw [hsplit]
    exact set_fresh_evict _ klast.1 klast.2 hanyk hALen
  have hAlist : (setAll cap ((kv0 :: m0 :: mt) ++ [klast])).lruList =
      klast :: (m0 :: mt).reverse := by
    rw [hA]
    simp only
    rw [hf1r, show (klast.1, klast.2) :: ((m0 :: mt).reverse ++ [kv0]) =
      ((klast.1, klast.2) :: (m0 :: mt).reverse) ++ [kv0] from rfl,
      List.dropLast_concat]
  -- Part (b): fill with N keys, read kv0, then insert klast.
  have hfind : (setAll cap (kv0 :: m0 :: mt)).lruList.find?
      (fun e => e.1 == kv0.1) = some kv0 := by
    rw [hf1r, List.find?_append]
    have hnone : (m0 :: mt).reverse.find? (fun e => e.1 == kv0.1) = none := by
      rw [List.find?_eq_none]
      intro x hx
      simp only [beq_iff_eq]
      exact fun hxx => (h10 x (List.mem_reverse.mp hx)) hxx.symm
    rw [hnone, List.find?_cons_of_pos _ (by simp)]
    rfl
  have herase : (setAll cap (kv0 :: m0 :: mt)).lruList.eraseP
      (fun e => e.1 == kv0.1) = (m0 :: mt).reverse := by
    rw [hf1r, List.eraseP_append_right _ ?side]
    case side =>
      intro b hb
      simp only [beq_iff_eq]
      exact fun hbb => (h10 b (List.mem_reverse.mp hb)) hbb.symm
    rw [List.eraseP_cons_of_pos (by simp)]
    simp
  have hB1 : ((setAll cap (kv0 :: m0 :: mt)).Get kv0.1).2 =
      { setAll cap (kv0 :: m0 :: mt) with
          lruList := kv0 :: (m0 :: mt).reverse
          hits := (setAll cap (kv0 :: m0 :: mt)).hits + 1 } := by
    rw [get_hit _ _ hfind]
    simp only
    rw [herase]
  have hanyk2 : (kv0 :: (m0 :: mt).reverse).any
      (fun e => e.1 == klast.1) = false := by
    apply any_key_eq_false
    intro e he
    rcases List.mem_cons.mp he with he1 | he1
    · rw [he1]
      exact hklast kv0 (by simp)
    · exact hklast e (by simp [List.mem_reverse.mp he1])
  have hB : (((setAll cap (kv0 :: m0 :: mt)).Get kv0.1).2.Set klast.1 klast.2) =
      { setAll cap (kv0 :: m0 :: mt) with
          lruList := klast :: kv0 :: mt.reverse
          hits := (setAll cap (kv0 :: m0 :: mt)).hits + 1
          evictions := (setAll cap (kv0 :: m0 :: mt)).evictions + 1 } := by
    rw [hB1]
    rw [set_fresh_evict _ klast.1 klast.2 hanyk2
      (by simp only [List.length_cons]; rw [hf2, hcapmax]; simp)]
    simp only
    congr 1
    rw [show (klast.1, klast.2) :: kv0 :: (m0 :: mt).reverse =
      ((klast.1, klast.2) :: kv0 :: mt.reverse) ++ [m0] by simp,
      List.dropLast_concat]
  refine ⟨hAlist, ?_, ?_, ?_, ?_, ?_, ?_, ?_⟩
  · unfold SearchCache.contains
    apply any_key_eq_false
    intro e he
    rw [hAlist] at he
    rcases List.mem_cons.mp he with he1 | he1
    · rw [he1]
      exact Ne.symm (h3 kv0 (by simp) klast (by simp))
    · exact Ne.symm (h10 e (List.mem_reverse.mp he1))
  · simp only [SearchCache.Size]
    rw [hAlist]
    simp
  · rw [hA]
    simp only
    rw [hf5, hcap]
    simp [NewSearchCacheWithSize]
  · rw [hB]
  · rw [hB]
    unfold SearchCache.contains
    simp only
    rw [List.any_eq_true]
    exact ⟨kv0, by simp, by simp⟩
  · rw [hB]
    unfold SearchCache.contains
    simp only
    apply any_key_eq_false
    intro e he
    rcases List.mem_cons.mp he with he1 | he1
    · rw [he1]
      exact Ne.symm (h3 m0 (by simp) klast (by simp))
    · rcases List.mem_cons.mp he1 with he2 | he2
      · rw [he2]
        exact h10 m0 (by simp)
      · exact Ne.symm (h110 e (List.mem_reverse.mp he2))
  · rw [hB]
    simp only
    rw [hf5, hcap]
    simp [NewSearchCacheWithSize]

/-- Witness for C1 at capacity 2 with the three keys a, b, d. -/
theorem lru_eviction_correct_witness :
    (setAll (NewSearchCacheWithSize 2)
        [("a", []), ("b", []), ("d", [])]).lruList =
      [("d", ([] : List CityData)), ("b", [])] ∧
    (setAll (NewSearchCacheWithSize 2)
        [("a", []), ("b", []), ("d", [])]).contains "a" = false ∧
    (setAll (NewSearchCacheWithSize 2)
        [("a", []), ("b", []), ("d", [])]).Size = 2 ∧
    (setAll (NewSearchCacheWithSize 2)
        [("a", []), ("b", []), ("d", [])]).evictions = 1 ∧
    (((setAll (NewSearchCacheWithSize 2)
        [("a", []), ("b", [])]).Get "a").2.Set "d" []).lruList =
      [("d", ([] : List CityData)), ("a", [])] ∧
    (((setAll (NewSearchCacheWithSize 2)
        [("a", []), ("b", [])]).Get "a").2.Set "d" []).contains "a" = true ∧
    (((setAll (NewSearchCacheWithSize 2)
        [("a", []), ("b", [])]).Get "a").2.Set "d" []).contains "b" = false ∧
    (((setAll (NewSearchCacheWithSize 2)
        [("a", []), ("b", [])]).Get "a").2.Set "d" []).evictions = 1 :=
  lru_eviction_correct ("a", []) ("b", []) ("d", []) [] (by decide)

/-! ### Slice identity (claim C4)

The Go value type `[]CityData` is a slice: a reference into a mutable
backing array.  `Get` executes `return entry.value, true` and `Set` stores
the caller's `result` slice as given — neither copies.  To make this
observable, the refined model below keeps the backing arrays in an
explicit `SliceStore` and lets the cache hold slice references (indices
into the store); the cache code itself is embedded line for line as
before, only at reference type. -/

/-- The backing arrays of all live slices; a slice reference is an index. -/
structure SliceStore where
  arrays : List (List CityData)

/-- Dereference a slice: the sequence its backing array currently holds. -/
def SliceStore.read (s : SliceStore) (r : Nat) : List CityData :=
  s.arrays.getD r []

/-- Mutate the backing array of slice `r` (what a caller does when it
writes through a slice it was handed). -/
def SliceStore.write (s : SliceStore) (r : Nat) (v : List CityData) : SliceStore :=
  ⟨s.arrays.set r v⟩

/-- The cache of `cache.go` at slice-reference type. -/
structure SearchCacheR where
  lruList : List (String × Nat)
  maxSize : Nat
  hits : Nat
  misses : Nat
  evictions : Nat

/-- `NewSearchCacheWithSize`, at reference type. -/
def NewSearchCacheR (maxSize : Int) : SearchCacheR :=
  { lruList := []
    maxSize := if maxSize ≤ 0 then DefaultMaxCacheSize else maxSize.toNat
    hits := 0
    misses := 0
    evictions := 0 }

/-- `SearchCache.Get`, at reference type: `return entry.value, true`
returns the stored slice itself. -/
def SearchCacheR.GetR (c : SearchCacheR) (key : String) :
    Option Nat × SearchCacheR :=
  match c.lruList.find? (fun e => e.1 == key) with
  | none => (none, { c with misses := c.misses + 1 })
  | some e =>
      (some e.2,
       { c with
           lruList := e :: c.lruList.eraseP (fun x => x.1 == key)
           hits := c.hits + 1 })

/-- `SearchCache.evictOldest`, at reference type. -/
def SearchCacheR.evictOldestR (c : SearchCacheR) : SearchCacheR :=
  match c.lruList.getLast? with
  | none => c
  | some _ =>
      { c with
          lruList := c.lruList.dropLast
          evictions := c.evictions + 1 }

/-- `SearchCache.Set`, at reference type: `entry.value = result` stores the
caller's slice as given. -/
def SearchCacheR.SetR (c : SearchCacheR) (key : String) (result : Nat) :
    SearchCacheR :=
  if c.lruList.any (fun e => e.1 == key) then
    { c with lruList := (key, result) :: c.lruList.eraseP (fun e => e.1 == key) }
  else
    let c1 : SearchCacheR := { c with lruList := (key, result) :: c.lruList }
    if c1.lruList.length > c1.maxSize then c1.evictOldestR else c1

/-- The slice the cache map currently associates to a key, if any. -/
def lookupR (c : SearchCacheR) (key : String) : Option Nat :=
  (c.lruList.find? (fun e => e.1 == key)).map Prod.snd

/-- A concrete stored record for the C4 scenario. -/
def chicagoCity : CityData :=
  mkCity "Chicago" "Illinois" "United States of America"

/-- The record a caller overwrites it with. -/
def mutatedCity : CityData :=
  mkCity "Mutated" "" ""

/-- Counterexample to claim C4 as stated: `Get` does not return a copy.
After `Set("k", slice 0)`, `Get("k")` hands back slice 0 itself — the very
slice still held by the cache entry — so a caller writing through the
returned slice changes the sequence the cache entry denotes from
`[chicagoCity]` to `[mutatedCity]`. -/
theorem get_returns_alias_counterexample :
    (((NewSearchCacheR 10).SetR "k" 0).GetR "k").1 = some 0 ∧
    lookupR (((NewSearchCacheR 10).SetR "k" 0).GetR "k").2 "k" = some 0 ∧
    lookupR ((NewSearchCacheR 10).SetR "k" 0) "k" = some 0 ∧
    SliceStore.read ⟨[[chicagoCity]]⟩ 0 = [chicagoCity] ∧
    SliceStore.read (SliceStore.write ⟨[[chicagoCity]]⟩ 0 [mutatedCity]) 0 =
      [mutatedCity] ∧
    [mutatedCity] ≠ [chicagoCity] := by
  refine ⟨rfl, rfl, rfl, rfl, rfl, ?_⟩
  intro h
  have hc : mutatedCity.City = chicagoCity.City :=
    congrArg (fun l => (l.headD mutatedCity).City) h
  simp [mutatedCity, chicagoCity, mkCity] at hc

/-- Claim C4, amended — result sequences are returned by reference, not by
copy: whenever the cache holds slice `r` under key `k`, `Get(k)` returns
exactly that slice, the cache entry still holds it afterwards, and a write
through the returned slice is a write to the sequence the cache entry
denotes. -/
theorem get_returns_alias (c : SearchCacheR) (k : String) (r : Nat)
    (s : SliceStore) (v : List CityData)
    (h : lookupR c k = some r) (hr : r < s.arrays.length) :
    ((c.GetR k).1 = some r ∧
     lookupR (c.GetR k).2 k = some r) ∧
    SliceStore.read (SliceStore.write s r v) r = v := by
  unfold lookupR at h
  rcases Option.map_eq_some'.mp h with ⟨e, hfind, hsnd⟩
  have hpe : (e.1 == k) = true :=
    @List.find?_some _ (fun x => x.1 == k) e c.lruList hfind
  constructor
  · unfold SearchCacheR.GetR
    rw [hfind]
    refine ⟨congrArg some hsnd, ?_⟩
    unfold lookupR
    have hstep : (e :: List.eraseP (fun x => x.1 == k) c.lruList).find?
        (fun x => x.1 == k) = some e :=
      List.find?_cons_of_pos _ hpe
    rw [hstep, Option.map_some', hsnd]
  · unfold SliceStore.write SliceStore.read
    simp only [List.getD_eq_getElem?_getD]
    rw [List.getElem?_set_self (by simpa using hr)]
    rfl

/-- Witness for the amended C4 at a one-entry cache and a one-slice
store. -/
theorem get_returns_alias_witness :
    ((((NewSearchCacheR 10).SetR "k" 0).GetR "k").1 = some 0 ∧
     lookupR (((NewSearchCacheR 10).SetR "k" 0).GetR "k").2 "k" = some 0) ∧
    SliceStore.read (SliceStore.write ⟨[[chicagoCity]]⟩ 0 [mutatedCity]) 0 =
      [mutatedCity] :=
  get_returns_alias ((NewSearchCacheR 10).SetR "k" 0) "k" 0 ⟨[[chicagoCity]]⟩
    [mutatedCity] rfl (by decide)

/-! ### Search layer (claims C2 and C3)

The search and validation code of the repository (`internal/city/search.go`
and `internal/city/validation.go`) is not under `src/`; only its public
wrapper, its tests and the spec describe it.  The definitions in this
section are therefore modelled from the spec and marked as such. -/

/-- Modelled from the spec: the ASCII case-folding table used by the
missing `internal/city/search.go` normalization ("case-folded ... query");
each uppercase letter maps to its lowercase counterpart and every other
character is unchanged. -/
def upperTable : List (Char × Char) :=
  [('A', 'a'),
   ('B', 'b'),
   ('C', 'c'),
   ('D', 'd'),
   ('E', 'e'),
   ('F', 'f'),
   ('G', 'g'),
   ('H', 'h'),
   ('I', 'i'),
   ('J', 'j'),
   ('K', 'k'),
   ('L', 'l'),
   ('M', 'm'),
   ('N', 'n'),
   ('O', 'o'),
   ('P', 'p'),
   ('Q', 'q'),
   ('R', 'r'),
   ('S', 's'),
   ('T', 't'),
   ('U', 'u'),
   ('V', 'v'),
   ('W', 'w'),
   ('X', 'x'),
   ('Y', 'y'),
   ('Z', 'z')]

/-- Modelled from the spec: folding one character is a lookup in the
table, defaulting to the character itself. -/
def foldChar (c : Char) : Char :=
  ((upperTable.find? (fun p => p.1 == c)).map Prod.snd).getD c

/-- Modelled from the spec: case folding of a character sequence. -/
def foldCaseL (l : List Char) : List Char :=
  l.map foldChar

/-- Modelled from the spec: whitespace trimming ("trimmed ... query") of a
character sequence, from both ends. -/
def trimL (l : List Char) : List Char :=
  ((l.dropWhile Char.isWhitespace).reverse.dropWhile Char.isWhitespace).reverse

/-- Modelled from the spec: query canonicalization of the missing
`internal/city/search.go` — the trimmed query, case-folded unless the
search is case-sensitive. -/
def canonQuery (caseSensitive : Bool) (q : String) : List Char :=
  if caseSensitive then trimL q.data else foldCaseL (trimL q.data)

/-- Embedding of the Go struct `SearchOptions` (two boolean flags, per the
spec and the public tests). -/
structure SearchOptions where
  CaseSensitive : Bool
  ExactMatch : Bool

/-- Go `DefaultSearchOptions`: case-insensitive, non-exact (asserted by
`citytimezones_test.go`). -/
def DefaultSearchOptions : SearchOptions :=
  { CaseSensitive := false, ExactMatch := false }

/-- Modelled from the spec: the serialized options component of a cache
key. -/
def serializeOptions (o : SearchOptions) : List Char :=
  [if o.CaseSensitive then '1' else '0', if o.ExactMatch then '1' else '0']

/-- Modelled from the spec: cache-key canonicalization — "strategy tag +
case-folded (unless case-sensitive) trimmed query + serialized options". -/
def cacheKeyM (strategy : List Char) (o : SearchOptions) (q : String) : String :=
  ⟨strategy ++ ':' :: canonQuery o.CaseSensitive q ++ ':' :: serializeOptions o⟩

/-- Modelled from the spec: characters the validator rejects — angle
brackets, the null byte and other control characters. -/
def isBadChar (c : Char) : Bool :=
  c == '<' || c == '>' || decide (c.toNat < 32) || c.toNat == 127

/-- Modelled from the spec: the city-name validation rule of the missing
`internal/city/validation.go` — at most 100 characters, no
injection/markup characters; the empty string is explicitly allowed. -/
def validateCityName (s : String) : Bool :=
  decide (s.data.length ≤ 100) && !(s.data.any isBadChar)

/-- The Go error kind `ValidationError`. -/
structure ValidationError where
  Reason : String

/-- Modelled from the spec: does `hay` start with `needle`? -/
def startsWithSeq : List Char → List Char → Bool
  | _, [] => true
  | [], _ :: _ => false
  | c :: t, n :: ns => c == n && startsWithSeq t ns

/-- Modelled from the spec: contiguous-substring containment. -/
def containsSeq : List Char → List Char → Bool
  | [], needle => needle.isEmpty
  | c :: t, needle => startsWithSeq (c :: t) needle || containsSeq t needle

/-- Modelled from the spec: whitespace-delimited token split (accumulator
holds the current word reversed). -/
def splitWsGo : List Char → List Char → List (List Char)
  | [], acc => if acc.isEmpty then [] else [acc.reverse]
  | c :: t, acc =>
      if c.isWhitespace then
        (if acc.isEmpty then splitWsGo t [] else acc.reverse :: splitWsGo t [])
      else splitWsGo t (c :: acc)

/-- Modelled from the spec: split a query into whitespace-delimited
tokens. -/
def splitWs (l : List Char) : List (List Char) :=
  splitWsGo l []

/-- Modelled from the spec: exact city-name match — a record matches iff
its city-name field equals the (trimmed, case-folded) query exactly. -/
def exactMatchPred (q : String) (r : CityData) : Bool :=
  foldCaseL r.City.data == canonQuery false q

/-- Modelled from the spec: the linear scan of the exact-match strategy,
in dataset order. -/
def lookupExactScan (ds : List CityData) (q : String) : List CityData :=
  ds.filter (exactMatchPred q)

/-- Modelled from the spec: the fields searched by the multi-field
strategies. -/
def searchFields (r : CityData) : List (List Char) :=
  [r.City.data, r.Province.data, r.Country.data]

/-- Modelled from the spec: the configurable-search predicate — every
token must appear in some field; `CaseSensitive` disables case folding and
`ExactMatch` requires whole-field equality instead of containment. -/
def searchPred (o : SearchOptions) (toks : List (List Char)) (r : CityData) : Bool :=
  toks.all (fun t => (searchFields r).any (fun f =>
    if o.ExactMatch then (if o.CaseSensitive then f else foldCaseL f) == t
    else containsSeq (if o.CaseSensitive then f else foldCaseL f) t))

/-- Modelled from the spec: the configurable search (`SearchCities`)
linear scan. -/
def SearchCitiesScan (ds : List CityData) (q : String) (o : SearchOptions) :
    List CityData :=
  ds.filter (searchPred o (splitWs (canonQuery o.CaseSensitive q)))

/-- Modelled from the spec: `LookupViaCity` — validate, consult the cache
under the canonical exact-strategy key, on a miss scan the dataset and
store the result; a validation failure short-circuits without touching the
cache. -/
def LookupViaCityM (ds : List CityData) (q : String) (c : SearchCache) :
    (List CityData × Option ValidationError) × SearchCache :=
  if validateCityName q then
    match c.Get (cacheKeyM "exact".data DefaultSearchOptions q) with
    | (some v, c1) => ((v, none), c1)
    | (none, c1) =>
        ((lookupExactScan ds q, none),
          c1.Set (cacheKeyM "exact".data DefaultSearchOptions q)
            (lookupExactScan ds q))
  else (([], some ⟨"invalid city name"⟩), c)

/-- Case folding never turns a character into or out of whitespace. -/
theorem foldChar_isWhitespace (c : Char) :
    (foldChar c).isWhitespace = c.isWhitespace := by
  cases hf : upperTable.find? (fun p => p.1 == c) with
  | none => simp [foldChar, hf]
  | some p =>
    have hp1 : (p.1 == c) = true :=
      @List.find?_some _ (fun p => p.1 == c) p upperTable hf
    have hpm : p ∈ upperTable := List.mem_of_find?_eq_some hf
    have hc : c = p.1 := (eq_of_beq hp1).symm
    subst hc
    simp only [foldChar, hf, Option.map_some, Option.getD_some]
    fin_cases hpm <;> decide

/-- Case folding never turns a character into or out of the validator's
denylist. -/
theorem foldChar_isBadChar (c : Char) :
    isBadChar (foldChar c) = isBadChar c := by
  cases hf : upperTable.find? (fun p => p.1 == c) with
  | none => simp [foldChar, hf]
  | some p =>
    have hp1 : (p.1 == c) = true :=
      @List.find?_some _ (fun p => p.1 == c) p upperTable hf
    have hpm : p ∈ upperTable := List.mem_of_find?_eq_some hf
    have hc : c = p.1 := (eq_of_beq hp1).symm
    subst hc
    simp only [foldChar, hf, Option.map_some, Option.getD_some]
    fin_cases hpm <;> decide

/-- Trimming commutes with case folding. -/
theorem trimL_map_foldChar (l : List Char) :
    trimL (l.map foldChar) = (trimL l).map foldChar := by
  have hpf : (Char.isWhitespace ∘ foldChar) = Char.isWhitespace :=
    funext foldChar_isWhitespace
  unfold trimL
  rw [List.dropWhile_map, hpf, ← List.map_reverse, List.dropWhile_map, hpf,
    ← List.map_reverse]

/-- Queries equal up to case canonicalize identically under the default
(case-insensitive) options. -/
theorem canon_eq_of_fold_eq (q1 q2 : String)
    (h : q1.data.map foldChar = q2.data.map foldChar) :
    canonQuery false q1 = canonQuery false q2 := by
  show (trimL q1.data).map foldChar = (trimL q2.data).map foldChar
  rw [← trimL_map_foldChar, ← trimL_map_foldChar, h]

/-- Queries equal up to case receive the same validation verdict. -/
theorem validate_eq_of_fold_eq (q1 q2 : String)
    (h : q1.data.map foldChar = q2.data.map foldChar) :
    validateCityName q1 = validateCityName q2 := by
  have hlen : q1.data.length = q2.data.length := by
    have hl := congrArg List.length h
    simpa using hl
  have hmap : ∀ l : List Char, (l.map foldChar).any isBadChar = l.any isBadChar := by
    intro l
    rw [List.any_map]
    congr 1
    funext x
    exact foldChar_isBadChar x
  have hany : q1.data.any isBadChar = q2.data.any isBadChar := by
    rw [← hmap q1.data, ← hmap q2.data, h]
  unfold validateCityName
  rw [hlen, hany]

/-- Claim C2 — cache-key canonicalization.  For two queries equal up to
letter case (and, to make the case-sensitive half non-trivial, distinct
even after trimming): under the default options they share one canonical
exact-strategy cache key and the exact scan and the whole cached
`LookupViaCity` pipeline return identical results; under a case-sensitive
configurable search they get distinct cache keys, and on a concrete
dataset the case-sensitive results do differ. -/
theorem cache_key_canonicalization (q1 q2 : String) (ds : List CityData)
    (c : SearchCache)
    (hfold : q1.data.map foldChar = q2.data.map foldChar)
    (htrim : trimL q1.data ≠ trimL q2.data) :
    cacheKeyM "exact".data DefaultSearchOptions q1 =
      cacheKeyM "exact".data DefaultSearchOptions q2 ∧
    lookupExactScan ds q1 = lookupExactScan ds q2 ∧
    LookupViaCityM ds q1 c = LookupViaCityM ds q2 c ∧
    cacheKeyM "search".data ⟨true, false⟩ q1 ≠
      cacheKeyM "search".data ⟨true, false⟩ q2 ∧
    (SearchCitiesScan [mkCity "chicago" "" ""] "Chicago" ⟨true, false⟩).length = 0 ∧
    (SearchCitiesScan [mkCity "chicago" "" ""] "chicago" ⟨true, false⟩).length = 1 := by
  have hcanon : canonQuery false q1 = canonQuery false q2 :=
    canon_eq_of_fold_eq q1 q2 hfold
  have hkey : cacheKeyM "exact".data DefaultSearchOptions q1 =
      cacheKeyM "exact".data DefaultSearchOptions q2 := by
    unfold cacheKeyM
    show String.mk _ = String.mk _
    rw [show canonQuery DefaultSearchOptions.CaseSensitive q1 =
      canonQuery DefaultSearchOptions.CaseSensitive q2 from hcanon]
  have hpred : exactMatchPred q1 = exactMatchPred q2 := by
    funext r
    unfold exactMatchPred
    rw [hcanon]
  have hscan : lookupExactScan ds q1 = lookupExactScan ds q2 := by
    unfold lookupExactScan
    rw [hpred]
  refine ⟨hkey, hscan, ?_, ?_, by decide, by decide⟩
  · unfold LookupViaCityM
    rw [validate_eq_of_fold_eq q1 q2 hfold, hkey, hscan]
  · intro heq
    have hd := congrArg String.data heq
    simp only [cacheKeyM] at hd
    have h1 : "search".data ++ ':' :: canonQuery true q1 =
        "search".data ++ ':' :: canonQuery true q2 :=
      List.append_cancel_right hd
    have h2 : ':' :: canonQuery true q1 = ':' :: canonQuery true q2 :=
      List.append_cancel_left h1
    have h3 : canonQuery true q1 = canonQuery true q2 := by
      injection h2
    exact htrim h3

/-- Witness for C2 at the spec's own example pair Chicago / chicago. -/
theorem cache_key_canonicalization_witness :
    cacheKeyM "exact".data DefaultSearchOptions "Chicago" =
      cacheKeyM "exact".data DefaultSearchOptions "chicago" ∧
    lookupExactScan [] "Chicago" = lookupExactScan [] "chicago" ∧
    LookupViaCityM [] "Chicago" NewSearchCache =
      LookupViaCityM [] "chicago" NewSearchCache ∧
    cacheKeyM "search".data ⟨true, false⟩ "Chicago" ≠
      cacheKeyM "search".data ⟨true, false⟩ "chicago" ∧
    (SearchCitiesScan [mkCity "chicago" "" ""] "Chicago" ⟨true, false⟩).length = 0 ∧
    (SearchCitiesScan [mkCity "chicago" "" ""] "chicago" ⟨true, false⟩).length = 1 :=
  cache_key_canonicalization "Chicago" "chicago" [] NewSearchCache
    (by decide) (by decide)

/-- Characters of a matched head segment belong to the list. -/
theorem mem_of_startsWithSeq {l n : List Char}
    (h : startsWithSeq l n = true) : ∀ c ∈ n, c ∈ l := by
  induction n generalizing l with
  | nil => simp
  | cons x ns ih =>
    cases l with
    | nil => simp [startsWithSeq] at h
    | cons c t =>
      simp only [startsWithSeq, Bool.and_eq_true] at h
      intro y hy
      rcases List.mem_cons.mp hy with hy1 | hy1
      · rw [hy1, ← eq_of_beq h.1]
        exact List.mem_cons_self c t
      · exact List.mem_cons_of_mem c (ih h.2 y hy1)

/-- Characters of a contained substring belong to the containing list. -/
theorem mem_of_containsSeq {hay needle : List Char}
    (h : containsSeq hay needle = true) : ∀ c ∈ needle, c ∈ hay := by
  induction hay with
  | nil =>
    simp only [containsSeq, List.isEmpty_iff] at h
    rw [h]
    simp
  | cons c t ih =>
    simp only [containsSeq, Bool.or_eq_true] at h
    rcases h with h1 | h1
    · exact mem_of_startsWithSeq h1
    · exact fun y hy => List.mem_cons_of_mem c (ih h1 y hy)

/-- Claim C3 — validation gate: a city-name lookup whose input contains
`<script>` is rejected with a validation error, an empty result, and a
completely untouched cache (in particular unchanged hit and miss
counters); a lookup of the empty string succeeds with an empty non-error
result (given that dataset records carry non-empty city names and that
any cached entry under the empty query's key is itself empty). -/
theorem validation_gate (ds : List CityData) (c : SearchCache) (q : String)
    (hq : containsSeq q.data "<script>".data = true)
    (hds : ∀ r ∈ ds, r.City.data ≠ [])
    (hc : ∀ v, c.lookup (cacheKeyM "exact".data DefaultSearchOptions "") = some v →
      v = []) :
    LookupViaCityM ds q c = (([], some ⟨"invalid city name"⟩), c) ∧
    (LookupViaCityM ds "" c).1 = ([], none) := by
  constructor
  · have hmem : '<' ∈ q.data := mem_of_containsSeq hq '<' (by decide)
    have hbad : q.data.any isBadChar = true :=
      List.any_eq_true.mpr ⟨'<', hmem, by decide⟩
    have hval : validateCityName q = false := by
      unfold validateCityName
      rw [hbad]
      simp
    unfold LookupViaCityM
    rw [if_neg (by simp [hval])]
  · have hscan : lookupExactScan ds "" = [] := by
      unfold lookupExactScan
      rw [List.filter_eq_nil_iff]
      intro r hr
      unfold exactMatchPred
      simp only [beq_iff_eq]
      intro hmap
      have hnil : r.City.data = [] := by
        have : foldCaseL r.City.data = [] := by
          rw [hmap]
          decide
        unfold foldCaseL at this
        exact List.map_eq_nil_iff.mp this
      exact hds r hr hnil
    unfold LookupViaCityM
    rw [if_pos (by decide)]
    cases hf : c.lruList.find?
        (fun e => e.1 == cacheKeyM "exact".data DefaultSearchOptions "") with
    | none =>
      rw [get_miss c _ hf, hscan]
    | some e =>
      rw [get_hit c _ hf]
      have he : e.2 = [] := by
        apply hc
        unfold SearchCache.lookup
        rw [hf]
        rfl
      rw [he]

/-- Witness for C3 with a concrete script-injection query, an empty
dataset and a fresh cache. -/
theorem validation_gate_witness :
    LookupViaCityM [] "<script>alert(1)</script>" NewSearchCache =
      (([], some ⟨"invalid city name"⟩), NewSearchCache) ∧
    (LookupViaCityM [] "" NewSearchCache).1 = ([], none) :=
  validation_gate [] NewSearchCache "<script>alert(1)</script>" (by decide)
    (by simp) (fun v hv => Option.noConfusion hv)
